import Mathlib

/-!
Verification of the PDF-splitting core of `app.py`: the two pattern
extractors (`extract_depot_id_from_text`, `extract_shipping_point_from_text`),
the two filename formatters, and the two page-grouping loops (Call List
and Group List).  Page texts are modelled as Lean `String`s (lists of
characters); the Python regular-expression searches are embedded as
explicit leftmost-match scanners over the character list.
-/

set_option autoImplicit false

/-- ASCII model of Python's case folding used by `re.IGNORECASE`:
uppercase letters are mapped to their lowercase code, all other
characters are left at their code point. -/
def lowerN (c : Char) : Nat :=
  if 65 ≤ c.toNat ∧ c.toNat ≤ 90 then c.toNat + 32 else c.toNat

/-- ASCII model of the regex class `\d` / `[0-9]`. -/
def isDigitC (c : Char) : Bool :=
  decide (48 ≤ c.toNat ∧ c.toNat ≤ 57)

/-- ASCII model of the regex class `\s` (space, tab, LF, VT, FF, CR). -/
def isSpaceC (c : Char) : Bool :=
  decide (c.toNat = 32 ∨ c.toNat = 9 ∨ c.toNat = 10 ∨ c.toNat = 11 ∨
          c.toNat = 12 ∨ c.toNat = 13)

/-- The regex class `[\r\n]`. -/
def isNlC (c : Char) : Bool :=
  decide (c.toNat = 10 ∨ c.toNat = 13)

/-- Case-insensitive test that the pattern (first argument) is a prefix of
the text (second argument), as for a literal under `re.IGNORECASE`. -/
def ciStarts : List Char → List Char → Bool
  | [], _ => true
  | _ :: _, [] => false
  | p :: ps, c :: cs => decide (lowerN p = lowerN c) && ciStarts ps cs

/-- Case-sensitive test that the pattern is a prefix of the text, as for a
literal regex without `re.IGNORECASE`. -/
def csStarts : List Char → List Char → Bool
  | [], _ => true
  | _ :: _, [] => false
  | p :: ps, c :: cs => decide (p = c) && csStarts ps cs

/-- The literal label of the Call List patterns. -/
def depotLabel : List Char := "Depot ID".toList

/-- Matcher for the part `\s*[\r\n]+\s*Depot ID` of the primary Call List
pattern: the text must open with a run of whitespace containing at least
one CR/LF, immediately followed by the label (case-insensitively).
`seen` records whether a CR/LF has been consumed already. -/
def wsNlLabel : Bool → List Char → Bool
  | _, [] => false
  | seen, c :: cs =>
    if seen && ciStarts depotLabel (c :: cs) then true
    else if isNlC c then wsNlLabel true cs
    else if isSpaceC c then wsNlLabel seen cs
    else false

/-- Attempt of the primary pattern `(\d{4})\s*[\r\n]+\s*Depot ID`
(IGNORECASE) at one start position: four digits, then whitespace with a
line break, then the label.  Returns the captured four digits. -/
def primaryAt : List Char → Option String
  | d1 :: d2 :: d3 :: d4 :: rest =>
    if isDigitC d1 && isDigitC d2 && isDigitC d3 && isDigitC d4 &&
       wsNlLabel false rest
    then some ⟨[d1, d2, d3, d4]⟩ else none
  | _ => none

/-- Reads `\d{4}` at the current position. -/
def digits4 : List Char → Option String
  | d1 :: d2 :: d3 :: d4 :: _ =>
    if isDigitC d1 && isDigitC d2 && isDigitC d3 && isDigitC d4
    then some ⟨[d1, d2, d3, d4]⟩ else none
  | _ => none

/-- The rest of `[^\d]+(\d{4})` after its first (mandatory) non-digit:
skip the remaining non-digits greedily; at the first digit the four-digit
group must match there or the whole attempt fails. -/
def skipNonDigits : List Char → Option String
  | [] => none
  | c :: cs => if isDigitC c then digits4 (c :: cs) else skipNonDigits cs

/-- Attempt of the fallback pattern `Depot ID[^\d]+(\d{4})`
(IGNORECASE | DOTALL) at one start position. -/
def fallbackAt (l : List Char) : Option String :=
  if ciStarts depotLabel l then
    match l.drop depotLabel.length with
    | [] => none
    | c :: cs => if isDigitC c then none else skipNonDigits cs
  else none

/-- `re.search` semantics: try the attempt at every position from left to
right (including the position at the end of the text) and return the
first success. -/
def reSearch (f : List Char → Option String) : List Char → Option String
  | [] => f []
  | c :: cs =>
    match f (c :: cs) with
    | some r => some r
    | none => reSearch f cs

/-- `extract_depot_id_from_text` of `app.py`: empty text is `UNKNOWN`;
otherwise the primary pattern is searched first, then the fallback, and
`UNKNOWN` is returned when neither matches. -/
def extract_depot_id_from_text (text : String) : String :=
  if text = "" then "UNKNOWN"
  else
    match reSearch primaryAt text.toList with
    | some k => k
    | none =>
      match reSearch fallbackAt text.toList with
      | some k => k
      | none => "UNKNOWN"

/-- The literal label of the Group List pattern. -/
def spLabel : List Char := "Shipping Point".toList

/-- Skips the regex part `\s*` (greedy, the following literal is never a
whitespace character). -/
def skipWs : List Char → List Char
  | [] => []
  | c :: cs => if isSpaceC c then skipWs cs else c :: cs

/-- Attempt of the pattern `Shipping Point\s*:\s*([0-9]{3}V)` (no flags,
hence case-sensitive) at one start position. -/
def spAt (l : List Char) : Option String :=
  if csStarts spLabel l then
    match skipWs (l.drop spLabel.length) with
    | ':' :: rest =>
      match skipWs rest with
      | d1 :: d2 :: d3 :: v :: _ =>
        if isDigitC d1 && isDigitC d2 && isDigitC d3 && decide (v = 'V')
        then some ⟨[d1, d2, d3, v]⟩ else none
      | _ => none
    | _ => none
  else none

/-- `extract_shipping_point_from_text` of `app.py`. -/
def extract_shipping_point_from_text (text : String) : String :=
  if text = "" then "UNKNOWN"
  else
    match reSearch spAt text.toList with
    | some k => k
    | none => "UNKNOWN"

/-- Python's `str.isdigit` restricted to ASCII: non-empty and all digits. -/
def str_isdigit (s : String) : Bool :=
  !s.toList.isEmpty && s.toList.all isDigitC

/-- `depot_id_to_filename` of `app.py`. -/
def depot_id_to_filename (depot_id : String) : String :=
  if depot_id = "UNKNOWN" ∨ str_isdigit depot_id = false ∨ depot_id.length < 2
  then depot_id ++ "_CL.pdf"
  else ⟨depot_id.toList.drop 1⟩ ++ "V" ++ "_CL.pdf"

/-- `shipping_point_to_filename` of `app.py`. -/
def shipping_point_to_filename (sp : String) : String :=
  if sp = "UNKNOWN" then "UNKNOWN" ++ "_Group.pdf" else sp ++ "_Group.pdf"

/-!  The grouping engines.  A group mapping models the Python insertion
ordered `dict` from key to accumulated pages: an association list in
first-appearance order, each entry carrying the 1-based page numbers of
its pages in append order. -/

/-- Append page `pn` to the group of key `k`, creating the group at the
end of the mapping on its first page (`dict[key] = PdfWriter()` followed
by `add_page`). -/
def addPage (k : String) (pn : Nat) : List (String × List Nat) → List (String × List Nat)
  | [] => [(k, [pn])]
  | g :: gs => if g.1 = k then (g.1, g.2 ++ [pn]) :: gs else g :: addPage k pn gs

/-- The pages currently held by the group of key `k` (empty when the
group does not exist). -/
def lookupG (k : String) : List (String × List Nat) → List Nat
  | [] => []
  | g :: gs => if g.1 = k then g.2 else lookupG k gs

/-- Number of occurrences of page `p` across all groups. -/
def countPage (p : Nat) : List (String × List Nat) → Nat
  | [] => 0
  | g :: gs => g.2.count p + countPage p gs

/-- Total number of pages across all groups. -/
def totalPages : List (String × List Nat) → Nat
  | [] => 0
  | g :: gs => g.2.length + totalPages gs

/-- State of the Call List Splitter loop of `app.py`: the group mapping
`depot_writers`, the carried `last_depot_id`, and the diagnostic lists
`unknown_attached` (page number with assigned key) and
`unknown_unassigned`. -/
structure CLState where
  groups : List (String × List Nat)
  lastDepot : Option String
  attached : List (Nat × String)
  unassigned : List Nat
deriving DecidableEq, Repr

/-- One iteration of the Call List page loop, given the already extracted
raw key `k` of page `pn`. -/
def clStepK (s : CLState) (pn : Nat) (k : String) : CLState :=
  if k = "UNKNOWN" then
    match s.lastDepot with
    | some d =>
      { s with groups := addPage d pn s.groups,
               attached := s.attached ++ [(pn, d)] }
    | none =>
      { s with groups := addPage "UNKNOWN" pn s.groups,
               unassigned := s.unassigned ++ [pn] }
  else
    { s with groups := addPage k pn s.groups, lastDepot := some k }

/-- The Call List page loop over the list of raw keys, `pn` being the
1-based number of the first remaining page. -/
def clRunK (s : CLState) (pn : Nat) : List String → CLState
  | [] => s
  | k :: ks => clRunK (clStepK s pn k) (pn + 1) ks

/-- The whole Call List grouping pass over the page texts: each page's
key is extracted with `extract_depot_id_from_text` and the loop starts
from the empty state at page number 1. -/
def callList (texts : List String) : CLState :=
  clRunK ⟨[], none, [], []⟩ 1 (texts.map extract_depot_id_from_text)

/-- State of the Group List Splitter loop of `app.py`: the group mapping
`sp_writers` and the diagnostic list `ignored_pages`. -/
structure GLState where
  groups : List (String × List Nat)
  ignored : List Nat
deriving DecidableEq, Repr

/-- One iteration of the Group List page loop, given the already
extracted raw key `k` of page `pn`: an `UNKNOWN` page is recorded as
ignored and skipped, any other page joins the group of its own key. -/
def glStepK (s : GLState) (pn : Nat) (k : String) : GLState :=
  if k = "UNKNOWN" then { s with ignored := s.ignored ++ [pn] }
  else { s with groups := addPage k pn s.groups }

/-- The Group List page loop over the list of raw keys. -/
def glRunK (s : GLState) (pn : Nat) : List String → GLState
  | [] => s
  | k :: ks => glRunK (glStepK s pn k) (pn + 1) ks

/-- The whole Group List grouping pass over the page texts. -/
def groupList (texts : List String) : GLState :=
  glRunK ⟨[], []⟩ 1 (texts.map extract_shipping_point_from_text)

/-- The output decision of the Group List Splitter (`if not sp_writers`):
with an empty group mapping the tool reports the empty-result condition
and builds no archive (`none`); otherwise it produces one archive entry
per group, named by `shipping_point_to_filename`, in group insertion
order. -/
def groupListArchive (texts : List String) : Option (List (String × List Nat)) :=
  let st := groupList texts
  if st.groups = [] then none
  else some (st.groups.map (fun g => (shipping_point_to_filename g.1, g.2)))

/-- The archive entries of the Call List Splitter: one per group, named
by `depot_id_to_filename`, in group insertion order. -/
def callListArchive (texts : List String) : List (String × List Nat) :=
  (callList texts).groups.map (fun g => (depot_id_to_filename g.1, g.2))

/-- `last_resolved_key` tracking: the carried key after processing a list
of raw keys starting from carried key `d`. -/
def lastKey (d : Option String) : List String → Option String
  | [] => d
  | k :: ks => lastKey (if k = "UNKNOWN" then d else some k) ks

/-- The keys of the group mapping, in insertion order. -/
def groupKeys (gs : List (String × List Nat)) : List String := gs.map Prod.fst

/-- Two character lists are equal up to letter case: same length and
pointwise equal after case folding. -/
def caseEqB : List Char → List Char → Bool
  | [], [] => true
  | a :: as, b :: bs => decide (lowerN a = lowerN b) && caseEqB as bs
  | _, _ => false

/-!  Generic lemmas about the leftmost search `reSearch`. -/

/-- `reSearch` returns `some k` exactly when some start position matches
with result `k` and every earlier start position fails. -/
theorem reSearch_eq_some_iff (f : List Char → Option String) (l : List Char) (k : String) :
    reSearch f l = some k ↔
      ∃ i, f (l.drop i) = some k ∧ ∀ j < i, f (l.drop j) = none := by
  induction l with
  | nil =>
    constructor
    · intro h
      exact ⟨0, by simpa [reSearch] using h, by omega⟩
    · rintro ⟨i, hi, _⟩
      simpa [reSearch] using hi
  | cons c cs ih =>
    cases h : f (c :: cs) with
    | some r =>
      constructor
      · intro hh
        refine ⟨0, ?_, by omega⟩
        simpa [reSearch, h] using hh
      · rintro ⟨i, hi, hj⟩
        cases i with
        | zero => simpa [reSearch, h] using hi
        | succ i =>
          have := hj 0 (Nat.succ_pos i)
          simp only [List.drop_zero] at this
          rw [this] at h
          exact absurd h (by simp)
    | none =>
      have hstep : reSearch f (c :: cs) = reSearch f cs := by
        simp [reSearch, h]
      rw [hstep, ih]
      constructor
      · rintro ⟨i, hi, hj⟩
        refine ⟨i + 1, by simpa using hi, ?_⟩
        intro j hlt
        cases j with
        | zero => simpa using h
        | succ j => simpa using hj j (by omega)
      · rintro ⟨i, hi, hj⟩
        cases i with
        | zero =>
          simp only [List.drop_zero] at hi
          rw [hi] at h
          exact absurd h (by simp)
        | succ i =>
          refine ⟨i, by simpa using hi, ?_⟩
          intro j hlt
          have := hj (j + 1) (by omega)
          simpa using this

/-- `reSearch` returns `none` exactly when every start position fails. -/
theorem reSearch_eq_none_iff (f : List Char → Option String) (l : List Char) :
    reSearch f l = none ↔ ∀ i, f (l.drop i) = none := by
  induction l with
  | nil =>
    constructor
    · intro h i
      simpa [reSearch] using h
    · intro h
      simpa [reSearch] using h 0
  | cons c cs ih =>
    cases h : f (c :: cs) with
    | some r =>
      constructor
      · intro hh
        rw [reSearch, h] at hh
        exact absurd hh (by simp)
      · intro hall
        have := hall 0
        simp only [List.drop_zero] at this
        rw [this] at h
        exact absurd h (by simp)
    | none =>
      have hstep : reSearch f (c :: cs) = reSearch f cs := by
        simp [reSearch, h]
      rw [hstep, ih]
      constructor
      · intro hall i
        cases i with
        | zero => simpa using h
        | succ i => simpa using hall i
      · intro hall i
        simpa using hall (i + 1)

/-- Any property of every possible output of the attempt holds of the
output of the search. -/
theorem reSearch_some_imp (f : List Char → Option String) (P : String → Prop)
    (hf : ∀ l k, f l = some k → P k) :
    ∀ l k, reSearch f l = some k → P k := by
  intro l
  induction l with
  | nil =>
    intro k h
    exact hf [] k (by simpa [reSearch] using h)
  | cons c cs ih =>
    intro k h
    cases hc : f (c :: cs) with
    | some r =>
      rw [reSearch, hc] at h
      exact hf (c :: cs) k (hc.trans h)
    | none =>
      rw [reSearch, hc] at h
      exact ih k h

/-!  Lemmas about the group mapping operations. -/

/-- Appending a page to the group of its key extends that key's pages. -/
theorem lookupG_addPage_self (k : String) (pn : Nat) (gs : List (String × List Nat)) :
    lookupG k (addPage k pn gs) = lookupG k gs ++ [pn] := by
  induction gs with
  | nil => simp [addPage, lookupG]
  | cons g gs ih =>
    by_cases h : g.1 = k
    · simp [addPage, lookupG, h]
    · simp [addPage, lookupG, h, ih]

/-- Appending a page to one group leaves every other group unchanged. -/
theorem lookupG_addPage_ne (k k' : String) (pn : Nat) (gs : List (String × List Nat))
    (h : k' ≠ k) : lookupG k' (addPage k pn gs) = lookupG k' gs := by
  have hkk : (k = k') = False := eq_false (fun hh => h hh.symm)
  induction gs with
  | nil => simp [addPage, lookupG, hkk]
  | cons g gs ih =>
    by_cases hg : g.1 = k
    · simp [addPage, lookupG, hg, hkk]
    · by_cases hg' : g.1 = k'
      · simp [addPage, lookupG, hg, hg', eq_false h]
      · simp [addPage, lookupG, hg, hg', ih]

/-- Whatever the key, `addPage` extends the looked-up pages by a suffix. -/
theorem lookupG_addPage_suffix (k k' : String) (pn : Nat) (gs : List (String × List Nat)) :
    ∃ t, lookupG k' (addPage k pn gs) = lookupG k' gs ++ t := by
  by_cases h : k' = k
  · exact ⟨[pn], h ▸ lookupG_addPage_self k pn gs⟩
  · exact ⟨[], by simp [lookupG_addPage_ne k k' pn gs h]⟩

/-- `addPage` adds exactly one occurrence of the appended page. -/
theorem countPage_addPage (p : Nat) (k : String) (pn : Nat)
    (gs : List (String × List Nat)) :
    countPage p (addPage k pn gs) = countPage p gs + (if p = pn then 1 else 0) := by
  induction gs with
  | nil =>
    by_cases hp : p = pn <;>
      simp [addPage, countPage, List.count_cons, hp]
  | cons g gs ih =>
    by_cases h : g.1 = k
    · by_cases hp : p = pn <;>
        (simp [addPage, countPage, h, hp, List.count_append, List.count_cons]
         try omega)
    · have hrw : addPage k pn (g :: gs) = g :: addPage k pn gs := by
        simp [addPage, h]
      rw [hrw]
      simp only [countPage, ih]
      omega

/-- `addPage` grows the total page count by one. -/
theorem totalPages_addPage (k : String) (pn : Nat) (gs : List (String × List Nat)) :
    totalPages (addPage k pn gs) = totalPages gs + 1 := by
  induction gs with
  | nil => simp [addPage, totalPages]
  | cons g gs ih =>
    by_cases h : g.1 = k
    · simp [addPage, totalPages, h]
      omega
    · simp [addPage, totalPages, h, ih]
      omega

/-- A page with no occurrence lies in no group. -/
theorem countPage_eq_zero_iff (p : Nat) (gs : List (String × List Nat)) :
    countPage p gs = 0 ↔ ∀ g ∈ gs, p ∉ g.2 := by
  induction gs with
  | nil => simp [countPage]
  | cons g gs ih =>
    simp only [countPage, List.mem_cons, Nat.add_eq_zero]
    rw [ih, List.count_eq_zero]
    constructor
    · rintro ⟨h1, h2⟩ g' hg'
      rcases hg' with rfl | hg'
      · exact h1
      · exact h2 g' hg'
    · intro h
      exact ⟨h g (Or.inl rfl), fun g' hg' => h g' (Or.inr hg')⟩

/-- The keys after `addPage` are the old keys plus (possibly) the new one. -/
theorem mem_groupKeys_addPage (k k' : String) (pn : Nat) (gs : List (String × List Nat)) :
    k' ∈ groupKeys (addPage k pn gs) ↔ k' ∈ groupKeys gs ∨ k' = k := by
  induction gs with
  | nil => simp [addPage, groupKeys]
  | cons g gs ih =>
    by_cases h : g.1 = k
    · have hrw : addPage k pn (g :: gs) = (g.1, g.2 ++ [pn]) :: gs := by
        simp [addPage, h]
      rw [hrw]
      simp [groupKeys, h]
      tauto
    · have hrw : addPage k pn (g :: gs) = g :: addPage k pn gs := by
        simp [addPage, h]
      rw [hrw]
      simp only [groupKeys, List.map_cons, List.mem_cons] at ih ⊢
      rw [ih]
      tauto

/-!  Invariants of the Call List loop. -/

/-- One Call List step appends the page to exactly one group. -/
theorem clStepK_countPage (s : CLState) (pn : Nat) (k : String) (p : Nat) :
    countPage p (clStepK s pn k).groups =
      countPage p s.groups + (if p = pn then 1 else 0) := by
  unfold clStepK
  by_cases h : k = "UNKNOWN"
  · cases hl : s.lastDepot <;> simp [h, hl, countPage_addPage]
  · simp [h, countPage_addPage]

/-- The carried key after one Call List step. -/
theorem clStepK_lastDepot (s : CLState) (pn : Nat) (k : String) :
    (clStepK s pn k).lastDepot = if k = "UNKNOWN" then s.lastDepot else some k := by
  unfold clStepK
  by_cases h : k = "UNKNOWN"
  · cases hl : s.lastDepot <;> simp [h, hl]
  · simp [h]

/-- One Call List step extends each group's page list by a suffix. -/
theorem clStepK_lookup_suffix (s : CLState) (pn : Nat) (k k' : String) :
    ∃ t, lookupG k' (clStepK s pn k).groups = lookupG k' s.groups ++ t := by
  unfold clStepK
  by_cases h : k = "UNKNOWN"
  · cases hl : s.lastDepot with
    | none => simpa [h, hl] using lookupG_addPage_suffix "UNKNOWN" k' pn s.groups
    | some d => simpa [h, hl] using lookupG_addPage_suffix d k' pn s.groups
  · simpa [h] using lookupG_addPage_suffix k k' pn s.groups

/-- The Call List loop only extends each group's page list. -/
theorem clRunK_lookup_suffix :
    ∀ (ks : List String) (s : CLState) (pn : Nat) (k' : String),
      ∃ t, lookupG k' (clRunK s pn ks).groups = lookupG k' s.groups ++ t := by
  intro ks
  induction ks with
  | nil => exact fun s pn k' => ⟨[], by simp [clRunK]⟩
  | cons k ks ih =>
    intro s pn k'
    obtain ⟨t1, h1⟩ := clStepK_lookup_suffix s pn k k'
    obtain ⟨t2, h2⟩ := ih (clStepK s pn k) (pn + 1) k'
    exact ⟨t1 ++ t2, by rw [clRunK, h2, h1, List.append_assoc]⟩

/-- Membership in a group is preserved by the rest of the Call List loop. -/
theorem clRunK_lookup_mono (ks : List String) (s : CLState) (pn : Nat)
    (k' : String) (p : Nat) (h : p ∈ lookupG k' s.groups) :
    p ∈ lookupG k' (clRunK s pn ks).groups := by
  obtain ⟨t, ht⟩ := clRunK_lookup_suffix ks s pn k'
  rw [ht]
  exact List.mem_append_left t h

/-- The reattributed-diagnostics list only grows. -/
theorem clRunK_attached_suffix :
    ∀ (ks : List String) (s : CLState) (pn : Nat),
      ∃ t, (clRunK s pn ks).attached = s.attached ++ t := by
  intro ks
  induction ks with
  | nil => exact fun s pn => ⟨[], by simp [clRunK]⟩
  | cons k ks ih =>
    intro s pn
    obtain ⟨t2, h2⟩ := ih (clStepK s pn k) (pn + 1)
    have h1 : ∃ t1, (clStepK s pn k).attached = s.attached ++ t1 := by
      unfold clStepK
      by_cases h : k = "UNKNOWN"
      · cases hl : s.lastDepot with
        | none => exact ⟨[], by simp [h, hl]⟩
        | some d => exact ⟨[(pn, d)], by simp [h, hl]⟩
      · exact ⟨[], by simp [h]⟩
    obtain ⟨t1, h1⟩ := h1
    exact ⟨t1 ++ t2, by rw [clRunK, h2, h1, List.append_assoc]⟩

/-- The carried key after the Call List loop is the last resolved key. -/
theorem clRunK_lastDepot :
    ∀ (ks : List String) (s : CLState) (pn : Nat),
      (clRunK s pn ks).lastDepot = lastKey s.lastDepot ks := by
  intro ks
  induction ks with
  | nil => intro s pn; rfl
  | cons k ks ih =>
    intro s pn
    rw [clRunK, ih, lastKey, clStepK_lastDepot]

/-- The Call List loop assigns each page exactly once overall. -/
theorem clRunK_countPage :
    ∀ (ks : List String) (s : CLState) (pn p : Nat),
      countPage p (clRunK s pn ks).groups =
        countPage p s.groups + (if pn ≤ p ∧ p < pn + ks.length then 1 else 0) := by
  intro ks
  induction ks with
  | nil =>
    intro s pn p
    have : ¬(pn ≤ p ∧ p < pn + ([] : List String).length) := by
      simp only [List.length_nil]
      omega
    simp [clRunK, this]
  | cons k ks ih =>
    intro s pn p
    rw [clRunK, ih, clStepK_countPage]
    simp only [List.length_cons]
    split_ifs <;> omega

/-- Where the Call List loop puts each page: a page whose raw key
resolved goes to that key's group (and makes it the carried key for its
successors); a page with raw key `UNKNOWN` goes to the group of the
carried last-resolved key when one exists, with a reattributed
diagnostic. -/
theorem clRunK_assign :
    ∀ (ks : List String) (s : CLState) (pn i : Nat) (h : i < ks.length),
      (ks.get ⟨i, h⟩ ≠ "UNKNOWN" →
        (pn + i) ∈ lookupG (ks.get ⟨i, h⟩) (clRunK s pn ks).groups) ∧
      (ks.get ⟨i, h⟩ = "UNKNOWN" →
        ∀ d, lastKey s.lastDepot (ks.take i) = some d →
          (pn + i) ∈ lookupG d (clRunK s pn ks).groups ∧
          (pn + i, d) ∈ (clRunK s pn ks).attached) := by
  intro ks
  induction ks with
  | nil => intro s pn i h; exact absurd h (by simp)
  | cons k ks ih =>
    intro s pn i h
    cases i with
    | zero =>
      have hget0 : (k :: ks).get ⟨0, h⟩ = k := rfl
      rw [hget0]
      simp only [Nat.add_zero, List.take_zero]
      constructor
      · intro hk
        have hmem : pn ∈ lookupG k (clStepK s pn k).groups := by
          unfold clStepK
          rw [if_neg hk]
          simp [lookupG_addPage_self]
        rw [clRunK]
        exact clRunK_lookup_mono ks (clStepK s pn k) (pn + 1) k pn hmem
      · intro hk d hd
        simp only [lastKey] at hd
        have hg : pn ∈ lookupG d (clStepK s pn k).groups := by
          unfold clStepK
          rw [if_pos hk, hd]
          simp [lookupG_addPage_self]
        have ha : (pn, d) ∈ (clStepK s pn k).attached := by
          unfold clStepK
          rw [if_pos hk, hd]
          simp
        constructor
        · rw [clRunK]
          exact clRunK_lookup_mono ks (clStepK s pn k) (pn + 1) d pn hg
        · rw [clRunK]
          obtain ⟨t, ht⟩ := clRunK_attached_suffix ks (clStepK s pn k) (pn + 1)
          rw [ht]
          exact List.mem_append_left t ha
    | succ i =>
      have h' : i < ks.length := by simpa using h
      have harith : pn + (i + 1) = (pn + 1) + i := by omega
      have hget : (k :: ks).get ⟨i + 1, h⟩ = ks.get ⟨i, h'⟩ := rfl
      rw [clRunK, hget, harith]
      have hmain := ih (clStepK s pn k) (pn + 1) i h'
      constructor
      · exact hmain.1
      · intro hk d hd
        rw [List.take_succ_cons, lastKey, ← clStepK_lastDepot s pn k] at hd
        exact hmain.2 hk d hd

/-- The `UNKNOWN` group appears during the Call List loop exactly when it
was already present, or the carried key is still absent and the key list
opens with an unresolved page. -/
theorem clRunK_unknown_mem :
    ∀ (ks : List String) (s : CLState) (pn : Nat),
      (∀ d, s.lastDepot = some d → d ≠ "UNKNOWN") →
      ("UNKNOWN" ∈ groupKeys (clRunK s pn ks).groups ↔
        "UNKNOWN" ∈ groupKeys s.groups ∨
          (s.lastDepot = none ∧
           ks.takeWhile (fun k => decide (k = "UNKNOWN")) ≠ [])) := by
  intro ks
  induction ks with
  | nil =>
    intro s pn hinv
    simp [clRunK, List.takeWhile]
  | cons k ks ih =>
    intro s pn hinv
    rw [clRunK]
    by_cases hk : k = "UNKNOWN"
    · subst hk
      have hinv2 : ∀ d', (clStepK s pn "UNKNOWN").lastDepot = some d' →
          d' ≠ "UNKNOWN" := by
        intro d' hd'
        rw [clStepK_lastDepot, if_pos rfl] at hd'
        exact hinv d' hd'
      rw [ih (clStepK s pn "UNKNOWN") (pn + 1) hinv2]
      cases hl : s.lastDepot with
      | none =>
        have hstep : clStepK s pn "UNKNOWN" =
            { s with groups := addPage "UNKNOWN" pn s.groups,
                     unassigned := s.unassigned ++ [pn] } := by
          unfold clStepK
          rw [if_pos rfl, hl]
        have hmem : "UNKNOWN" ∈ groupKeys (addPage "UNKNOWN" pn s.groups) :=
          (mem_groupKeys_addPage _ _ _ _).mpr (Or.inr rfl)
        have htw : List.takeWhile (fun k => decide (k = "UNKNOWN"))
            ("UNKNOWN" :: ks) ≠ [] := by
          simp [List.takeWhile]
        simp only [hstep, hl]
        constructor
        · intro _
          exact Or.inr ⟨by trivial, htw⟩
        · intro _
          exact Or.inl hmem
      | some d =>
        have hdne : d ≠ "UNKNOWN" := hinv d hl
        have hstep : clStepK s pn "UNKNOWN" =
            { s with groups := addPage d pn s.groups,
                     attached := s.attached ++ [(pn, d)] } := by
          unfold clStepK
          rw [if_pos rfl, hl]
        simp only [hstep, hl]
        rw [mem_groupKeys_addPage]
        constructor
        · rintro (hu | ⟨hc, _⟩)
          · rcases hu with hu | hu
            · exact Or.inl hu
            · exact absurd hu.symm hdne
          · exact absurd hc (by simp)
        · rintro (hu | ⟨hc, _⟩)
          · exact Or.inl (Or.inl hu)
          · exact absurd hc (by simp)
    · have hstep : clStepK s pn k =
          { s with groups := addPage k pn s.groups, lastDepot := some k } := by
        unfold clStepK
        rw [if_neg hk]
      have hinv2 : ∀ d', (clStepK s pn k).lastDepot = some d' →
          d' ≠ "UNKNOWN" := by
        intro d' hd'
        rw [hstep] at hd'
        simp only [Option.some_inj] at hd'
        exact hd' ▸ hk
      rw [ih (clStepK s pn k) (pn + 1) hinv2]
      simp only [hstep]
      rw [mem_groupKeys_addPage]
      have htw : (k :: ks).takeWhile (fun k => decide (k = "UNKNOWN")) = [] := by
        simp [List.takeWhile, hk]
      rw [htw]
      constructor
      · rintro (hu | ⟨hc, _⟩)
        · rcases hu with hu | hu
          · exact Or.inl hu
          · exact absurd hu.symm hk
        · exact absurd hc (by simp)
      · rintro (hu | ⟨_, hne⟩)
        · exact Or.inl (Or.inl hu)
        · exact absurd rfl hne

/-!  Invariants of the Group List loop. -/

/-- One Group List step adds the page to a group exactly when its key
resolved. -/
theorem glStepK_countPage (s : GLState) (pn : Nat) (k : String) (p : Nat) :
    countPage p (glStepK s pn k).groups =
      countPage p s.groups + (if k ≠ "UNKNOWN" ∧ p = pn then 1 else 0) := by
  unfold glStepK
  by_cases h : k = "UNKNOWN"
  · simp [h]
  · simp [h, countPage_addPage]

/-- Page occurrence count after the Group List loop: a page is counted
once exactly when it lies in the processed range and its own key
resolved. -/
theorem glRunK_countPage :
    ∀ (ks : List String) (s : GLState) (pn p : Nat),
      countPage p (glRunK s pn ks).groups =
        countPage p s.groups +
          (if pn ≤ p ∧ p < pn + ks.length ∧
              ks.getD (p - pn) "UNKNOWN" ≠ "UNKNOWN"
           then 1 else 0) := by
  intro ks
  induction ks with
  | nil =>
    intro s pn p
    simp only [glRunK, List.length_nil]
    have hc : ¬(pn ≤ p ∧ p < pn + 0 ∧
        ([] : List String).getD (p - pn) "UNKNOWN" ≠ "UNKNOWN") := by
      rintro ⟨h1, h2, _⟩
      omega
    rw [if_neg hc]
    omega
  | cons k ks ih =>
    intro s pn p
    rw [glRunK, ih, glStepK_countPage]
    simp only [List.length_cons]
    by_cases hp : p = pn
    · subst hp
      simp only [Nat.sub_self, List.getD_cons_zero]
      by_cases hk : k = "UNKNOWN"
      · rw [if_neg (show ¬(¬k = "UNKNOWN" ∧ True) from fun hB => hB.1 hk),
            if_neg (show ¬(p + 1 ≤ p ∧ p < p + 1 + ks.length ∧
              ks.getD (p - (p + 1)) "UNKNOWN" ≠ "UNKNOWN") from
              fun hA => absurd hA.1 (by omega)),
            if_neg (show ¬(p ≤ p ∧ p < p + (ks.length + 1) ∧ ¬k = "UNKNOWN") from
              fun hC => hC.2.2 hk)]
      · rw [if_pos (show ¬k = "UNKNOWN" ∧ True from ⟨hk, trivial⟩),
            if_neg (show ¬(p + 1 ≤ p ∧ p < p + 1 + ks.length ∧
              ks.getD (p - (p + 1)) "UNKNOWN" ≠ "UNKNOWN") from
              fun hA => absurd hA.1 (by omega)),
            if_pos (show p ≤ p ∧ p < p + (ks.length + 1) ∧ ¬k = "UNKNOWN" from
              ⟨Nat.le_refl p, by omega, hk⟩)]
        try omega
    · rw [if_neg (show ¬(¬k = "UNKNOWN" ∧ p = pn) from fun hB => hp hB.2)]
      by_cases hge : pn + 1 ≤ p
      · have hsub : p - pn = (p - (pn + 1)) + 1 := by omega
        rw [hsub, List.getD_cons_succ]
        by_cases hQ : ks.getD (p - (pn + 1)) "UNKNOWN" = "UNKNOWN"
        · rw [if_neg (show ¬(pn + 1 ≤ p ∧ p < pn + 1 + ks.length ∧
              ks.getD (p - (pn + 1)) "UNKNOWN" ≠ "UNKNOWN") from
              fun hA => hA.2.2 hQ),
              if_neg (show ¬(pn ≤ p ∧ p < pn + (ks.length + 1) ∧
                ks.getD (p - (pn + 1)) "UNKNOWN" ≠ "UNKNOWN") from
                fun hC => hC.2.2 hQ)]
        · by_cases hlt : p < pn + 1 + ks.length
          · rw [if_pos (show pn + 1 ≤ p ∧ p < pn + 1 + ks.length ∧
                ks.getD (p - (pn + 1)) "UNKNOWN" ≠ "UNKNOWN" from ⟨hge, hlt, hQ⟩),
                if_pos (show pn ≤ p ∧ p < pn + (ks.length + 1) ∧
                  ks.getD (p - (pn + 1)) "UNKNOWN" ≠ "UNKNOWN" from
                  ⟨by omega, by omega, hQ⟩)]
            try omega
          · rw [if_neg (show ¬(pn + 1 ≤ p ∧ p < pn + 1 + ks.length ∧
                ks.getD (p - (pn + 1)) "UNKNOWN" ≠ "UNKNOWN") from
                fun hA => hlt hA.2.1),
                if_neg (show ¬(pn ≤ p ∧ p < pn + (ks.length + 1) ∧
                  ks.getD (p - (pn + 1)) "UNKNOWN" ≠ "UNKNOWN") from
                  fun hC => absurd hC.2.1 (by omega))]
      · rw [if_neg (show ¬(pn + 1 ≤ p ∧ p < pn + 1 + ks.length ∧
            ks.getD (p - (pn + 1)) "UNKNOWN" ≠ "UNKNOWN") from fun hA => hge hA.1),
            if_neg (show ¬(pn ≤ p ∧ p < pn + (ks.length + 1) ∧
              (k :: ks).getD (p - pn) "UNKNOWN" ≠ "UNKNOWN") from
              fun hC => absurd hC.1 (by omega))]

/-- One Group List step accounts each page once, either in a group or as
ignored. -/
theorem glStepK_total (s : GLState) (pn : Nat) (k : String) :
    totalPages (glStepK s pn k).groups + (glStepK s pn k).ignored.length =
      totalPages s.groups + s.ignored.length + 1 := by
  unfold glStepK
  by_cases h : k = "UNKNOWN"
  · simp [h]
    omega
  · simp [h, totalPages_addPage]
    omega

/-- Pages in groups plus dropped pages account for every processed page. -/
theorem glRunK_total :
    ∀ (ks : List String) (s : GLState) (pn : Nat),
      totalPages (glRunK s pn ks).groups + (glRunK s pn ks).ignored.length =
        totalPages s.groups + s.ignored.length + ks.length := by
  intro ks
  induction ks with
  | nil => intro s pn; simp [glRunK]
  | cons k ks ih =>
    intro s pn
    rw [glRunK]
    have h1 := ih (glStepK s pn k) (pn + 1)
    have h2 := glStepK_total s pn k
    simp only [List.length_cons]
    omega

/-- One Group List step extends each group's page list by a suffix. -/
theorem glStepK_lookup_suffix (s : GLState) (pn : Nat) (k k' : String) :
    ∃ t, lookupG k' (glStepK s pn k).groups = lookupG k' s.groups ++ t := by
  unfold glStepK
  by_cases h : k = "UNKNOWN"
  · exact ⟨[], by simp [h]⟩
  · simpa [h] using lookupG_addPage_suffix k k' pn s.groups

/-- The Group List loop only extends each group's page list. -/
theorem glRunK_lookup_suffix :
    ∀ (ks : List String) (s : GLState) (pn : Nat) (k' : String),
      ∃ t, lookupG k' (glRunK s pn ks).groups = lookupG k' s.groups ++ t := by
  intro ks
  induction ks with
  | nil => exact fun s pn k' => ⟨[], by simp [glRunK]⟩
  | cons k ks ih =>
    intro s pn k'
    obtain ⟨t1, h1⟩ := glStepK_lookup_suffix s pn k k'
    obtain ⟨t2, h2⟩ := ih (glStepK s pn k) (pn + 1) k'
    exact ⟨t1 ++ t2, by rw [glRunK, h2, h1, List.append_assoc]⟩

/-- Membership in a group is preserved by the rest of the Group List loop. -/
theorem glRunK_lookup_mono (ks : List String) (s : GLState) (pn : Nat)
    (k' : String) (p : Nat) (h : p ∈ lookupG k' s.groups) :
    p ∈ lookupG k' (glRunK s pn ks).groups := by
  obtain ⟨t, ht⟩ := glRunK_lookup_suffix ks s pn k'
  rw [ht]
  exact List.mem_append_left t h

/-- The ignored-pages list only grows. -/
theorem glRunK_ignored_suffix :
    ∀ (ks : List String) (s : GLState) (pn : Nat),
      ∃ t, (glRunK s pn ks).ignored = s.ignored ++ t := by
  intro ks
  induction ks with
  | nil => exact fun s pn => ⟨[], by simp [glRunK]⟩
  | cons k ks ih =>
    intro s pn
    obtain ⟨t2, h2⟩ := ih (glStepK s pn k) (pn + 1)
    have h1 : ∃ t1, (glStepK s pn k).ignored = s.ignored ++ t1 := by
      unfold glStepK
      by_cases h : k = "UNKNOWN"
      · exact ⟨[pn], by simp [h]⟩
      · exact ⟨[], by simp [h]⟩
    obtain ⟨t1, h1⟩ := h1
    exact ⟨t1 ++ t2, by rw [glRunK, h2, h1, List.append_assoc]⟩

/-- Where the Group List loop puts each page: an unresolved page is
recorded as ignored, a resolved page joins the group of its own key. -/
theorem glRunK_assign :
    ∀ (ks : List String) (s : GLState) (pn i : Nat) (h : i < ks.length),
      (ks.get ⟨i, h⟩ = "UNKNOWN" → (pn + i) ∈ (glRunK s pn ks).ignored) ∧
      (ks.get ⟨i, h⟩ ≠ "UNKNOWN" →
        (pn + i) ∈ lookupG (ks.get ⟨i, h⟩) (glRunK s pn ks).groups) := by
  intro ks
  induction ks with
  | nil => intro s pn i h; exact absurd h (by simp)
  | cons k ks ih =>
    intro s pn i h
    cases i with
    | zero =>
      have hget0 : (k :: ks).get ⟨0, h⟩ = k := rfl
      rw [hget0]
      simp only [Nat.add_zero]
      constructor
      · intro hk
        have hmem : pn ∈ (glStepK s pn k).ignored := by
          unfold glStepK
          rw [if_pos hk]
          simp
        rw [glRunK]
        obtain ⟨t, ht⟩ := glRunK_ignored_suffix ks (glStepK s pn k) (pn + 1)
        rw [ht]
        exact List.mem_append_left t hmem
      · intro hk
        have hmem : pn ∈ lookupG k (glStepK s pn k).groups := by
          unfold glStepK
          rw [if_neg hk]
          simp [lookupG_addPage_self]
        rw [glRunK]
        exact glRunK_lookup_mono ks (glStepK s pn k) (pn + 1) k pn hmem
    | succ i =>
      have h' : i < ks.length := by simpa using h
      have harith : pn + (i + 1) = (pn + 1) + i := by omega
      have hget : (k :: ks).get ⟨i + 1, h⟩ = ks.get ⟨i, h'⟩ := rfl
      rw [glRunK, hget, harith]
      exact ih (glStepK s pn k) (pn + 1) i h'

/-- If every key is `UNKNOWN`, the Group List loop creates no group. -/
theorem glRunK_groups_const :
    ∀ (ks : List String) (s : GLState) (pn : Nat),
      (∀ k ∈ ks, k = "UNKNOWN") → (glRunK s pn ks).groups = s.groups := by
  intro ks
  induction ks with
  | nil => intro s pn _; rfl
  | cons k ks ih =>
    intro s pn hall
    rw [glRunK]
    have hk : k = "UNKNOWN" := hall k (List.mem_cons_self k ks)
    have hstep : (glStepK s pn k).groups = s.groups := by
      unfold glStepK
      rw [if_pos hk]
    rw [ih (glStepK s pn k) (pn + 1) (fun k' hk' => hall k' (List.mem_cons_of_mem k hk')), hstep]

/-!  Characters equal up to case agree on every character class used by
the Call List patterns, and case folding is the identity on digits. -/

/-- Case folding preserves digit-ness. -/
theorem lowerN_isDigit {a b : Char} (h : lowerN a = lowerN b) :
    isDigitC a = isDigitC b := by
  unfold lowerN at h
  unfold isDigitC
  simp only [decide_eq_decide]
  split at h <;> split at h <;> omega

/-- Case folding preserves whitespace-ness. -/
theorem lowerN_isSpace {a b : Char} (h : lowerN a = lowerN b) :
    isSpaceC a = isSpaceC b := by
  unfold lowerN at h
  unfold isSpaceC
  simp only [decide_eq_decide]
  split at h <;> split at h <;> omega

/-- Case folding preserves line-break-ness. -/
theorem lowerN_isNl {a b : Char} (h : lowerN a = lowerN b) :
    isNlC a = isNlC b := by
  unfold lowerN at h
  unfold isNlC
  simp only [decide_eq_decide]
  split at h <;> split at h <;> omega

/-- Two case-equal characters, one of which is a digit, are equal. -/
theorem lowerN_digit_eq {a b : Char} (h : lowerN a = lowerN b)
    (hd : isDigitC a = true) : a = b := by
  unfold lowerN at h
  unfold isDigitC at hd
  simp only [decide_eq_true_eq] at hd
  refine Char.eq_of_val_eq (UInt32.ext ?_)
  show a.toNat = b.toNat
  split at h <;> split at h <;> omega

/-- Case-equal lists stay case-equal after dropping a common prefix. -/
theorem caseEqB_drop :
    ∀ (n : Nat) (as bs : List Char), caseEqB as bs = true →
      caseEqB (as.drop n) (bs.drop n) = true := by
  intro n
  induction n with
  | zero => intro as bs h; simpa using h
  | succ n ih =>
    intro as bs h
    cases as with
    | nil =>
      cases bs with
      | nil => simpa using h
      | cons b bs => simp [caseEqB] at h
    | cons a as =>
      cases bs with
      | nil => simp [caseEqB] at h
      | cons b bs =>
        simp only [caseEqB, Bool.and_eq_true] at h
        simpa using ih as bs h.2

/-- Case-insensitive prefix tests agree on case-equal texts. -/
theorem ciStarts_congr :
    ∀ (p as bs : List Char), caseEqB as bs = true →
      ciStarts p as = ciStarts p bs := by
  intro p
  induction p with
  | nil => intro as bs _; rfl
  | cons q ps ih =>
    intro as bs h
    cases as with
    | nil =>
      cases bs with
      | nil => rfl
      | cons b bs => simp [caseEqB] at h
    | cons a as =>
      cases bs with
      | nil => simp [caseEqB] at h
      | cons b bs =>
        simp only [caseEqB, Bool.and_eq_true, decide_eq_true_eq] at h
        simp only [ciStarts, h.1, ih as bs h.2]

/-- The whitespace-then-label matcher agrees on case-equal texts. -/
theorem wsNlLabel_congr :
    ∀ (as bs : List Char), caseEqB as bs = true →
      ∀ seen, wsNlLabel seen as = wsNlLabel seen bs := by
  intro as
  induction as with
  | nil =>
    intro bs h seen
    cases bs with
    | nil => rfl
    | cons b bs => simp [caseEqB] at h
  | cons a as ih =>
    intro bs h seen
    cases bs with
    | nil => simp [caseEqB] at h
    | cons b bs =>
      have hfull := h
      simp only [caseEqB, Bool.and_eq_true, decide_eq_true_eq] at h
      have hci := ciStarts_congr depotLabel (a :: as) (b :: bs) hfull
      have hnl := lowerN_isNl h.1
      have hsp := lowerN_isSpace h.1
      simp only [wsNlLabel]
      rw [hci, hnl, hsp, ih bs h.2 true, ih bs h.2 seen]

/-- The primary-pattern attempt agrees on case-equal texts. -/
theorem primaryAt_congr :
    ∀ (as bs : List Char), caseEqB as bs = true → primaryAt as = primaryAt bs := by
  intro as bs h
  cases as with
  | nil =>
    cases bs with
    | nil => rfl
    | cons b1 bs => simp [caseEqB] at h
  | cons a1 as =>
    cases bs with
    | nil => simp [caseEqB] at h
    | cons b1 bs =>
      simp only [caseEqB, Bool.and_eq_true, decide_eq_true_eq] at h
      obtain ⟨h1, h⟩ := h
      cases as with
      | nil =>
        cases bs with
        | nil => rfl
        | cons b2 bs => simp [caseEqB] at h
      | cons a2 as =>
        cases bs with
        | nil => simp [caseEqB] at h
        | cons b2 bs =>
          simp only [caseEqB, Bool.and_eq_true, decide_eq_true_eq] at h
          obtain ⟨h2, h⟩ := h
          cases as with
          | nil =>
            cases bs with
            | nil => rfl
            | cons b3 bs => simp [caseEqB] at h
          | cons a3 as =>
            cases bs with
            | nil => simp [caseEqB] at h
            | cons b3 bs =>
              simp only [caseEqB, Bool.and_eq_true, decide_eq_true_eq] at h
              obtain ⟨h3, h⟩ := h
              cases as with
              | nil =>
                cases bs with
                | nil => rfl
                | cons b4 bs => simp [caseEqB] at h
              | cons a4 as =>
                cases bs with
                | nil => simp [caseEqB] at h
                | cons b4 bs =>
                  simp only [caseEqB, Bool.and_eq_true, decide_eq_true_eq] at h
                  obtain ⟨h4, hr⟩ := h
                  have e1 := lowerN_isDigit h1
                  have e2 := lowerN_isDigit h2
                  have e3 := lowerN_isDigit h3
                  have e4 := lowerN_isDigit h4
                  have ew := wsNlLabel_congr as bs hr false
                  simp only [primaryAt]
                  rw [e1, e2, e3, e4, ew]
                  by_cases hc : (isDigitC b1 && isDigitC b2 && isDigitC b3 &&
                      isDigitC b4 && wsNlLabel false bs) = true
                  · rw [if_pos hc, if_pos hc]
                    simp only [Bool.and_eq_true] at hc
                    have c1 : a1 = b1 := lowerN_digit_eq h1 (by rw [e1]; exact hc.1.1.1.1)
                    have c2 : a2 = b2 := lowerN_digit_eq h2 (by rw [e2]; exact hc.1.1.1.2)
                    have c3 : a3 = b3 := lowerN_digit_eq h3 (by rw [e3]; exact hc.1.1.2)
                    have c4 : a4 = b4 := lowerN_digit_eq h4 (by rw [e4]; exact hc.1.2)
                    rw [c1, c2, c3, c4]
                  · rw [if_neg hc, if_neg hc]

/-- The four-digit reader agrees on case-equal texts. -/
theorem digits4_congr :
    ∀ (as bs : List Char), caseEqB as bs = true → digits4 as = digits4 bs := by
  intro as bs h
  cases as with
  | nil =>
    cases bs with
    | nil => rfl
    | cons b1 bs => simp [caseEqB] at h
  | cons a1 as =>
    cases bs with
    | nil => simp [caseEqB] at h
    | cons b1 bs =>
      simp only [caseEqB, Bool.and_eq_true, decide_eq_true_eq] at h
      obtain ⟨h1, h⟩ := h
      cases as with
      | nil =>
        cases bs with
        | nil => rfl
        | cons b2 bs => simp [caseEqB] at h
      | cons a2 as =>
        cases bs with
        | nil => simp [caseEqB] at h
        | cons b2 bs =>
          simp only [caseEqB, Bool.and_eq_true, decide_eq_true_eq] at h
          obtain ⟨h2, h⟩ := h
          cases as with
          | nil =>
            cases bs with
            | nil => rfl
            | cons b3 bs => simp [caseEqB] at h
          | cons a3 as =>
            cases bs with
            | nil => simp [caseEqB] at h
            | cons b3 bs =>
              simp only [caseEqB, Bool.and_eq_true, decide_eq_true_eq] at h
              obtain ⟨h3, h⟩ := h
              cases as with
              | nil =>
                cases bs with
                | nil => rfl
                | cons b4 bs => simp [caseEqB] at h
              | cons a4 as =>
                cases bs with
                | nil => simp [caseEqB] at h
                | cons b4 bs =>
                  simp only [caseEqB, Bool.and_eq_true, decide_eq_true_eq] at h
                  obtain ⟨h4, hr⟩ := h
                  have e1 := lowerN_isDigit h1
                  have e2 := lowerN_isDigit h2
                  have e3 := lowerN_isDigit h3
                  have e4 := lowerN_isDigit h4
                  simp only [digits4]
                  rw [e1, e2, e3, e4]
                  by_cases hc : (isDigitC b1 && isDigitC b2 && isDigitC b3 &&
                      isDigitC b4) = true
                  · rw [if_pos hc, if_pos hc]
                    simp only [Bool.and_eq_true] at hc
                    have c1 : a1 = b1 := lowerN_digit_eq h1 (by rw [e1]; exact hc.1.1.1)
                    have c2 : a2 = b2 := lowerN_digit_eq h2 (by rw [e2]; exact hc.1.1.2)
                    have c3 : a3 = b3 := lowerN_digit_eq h3 (by rw [e3]; exact hc.1.2)
                    have c4 : a4 = b4 := lowerN_digit_eq h4 (by rw [e4]; exact hc.2)
                    rw [c1, c2, c3, c4]
                  · rw [if_neg hc, if_neg hc]

/-- The non-digit skipper agrees on case-equal texts. -/
theorem skipNonDigits_congr :
    ∀ (as bs : List Char), caseEqB as bs = true →
      skipNonDigits as = skipNonDigits bs := by
  intro as
  induction as with
  | nil =>
    intro bs h
    cases bs with
    | nil => rfl
    | cons b bs => simp [caseEqB] at h
  | cons a as ih =>
    intro bs h
    cases bs with
    | nil => simp [caseEqB] at h
    | cons b bs =>
      have hfull := h
      simp only [caseEqB, Bool.and_eq_true, decide_eq_true_eq] at h
      have hd := lowerN_isDigit h.1
      simp only [skipNonDigits]
      rw [hd]
      by_cases hdig : isDigitC b = true
      · rw [if_pos hdig, if_pos hdig]
        exact digits4_congr (a :: as) (b :: bs) hfull
      · rw [if_neg hdig, if_neg hdig]
        exact ih bs h.2

/-- The fallback-pattern attempt agrees on case-equal texts. -/
theorem fallbackAt_congr :
    ∀ (as bs : List Char), caseEqB as bs = true →
      fallbackAt as = fallbackAt bs := by
  intro as bs h
  have hci := ciStarts_congr depotLabel as bs h
  unfold fallbackAt
  rw [hci]
  by_cases hc : ciStarts depotLabel bs = true
  · rw [if_pos hc, if_pos hc]
    have hdrop := caseEqB_drop depotLabel.length as bs h
    rcases hd1 : as.drop depotLabel.length with _ | ⟨c, cs⟩ <;>
      rcases hd2 : bs.drop depotLabel.length with _ | ⟨d, ds⟩
    · rfl
    · simp only [hd1, hd2] at hdrop
      simp [caseEqB] at hdrop
    · simp only [hd1, hd2] at hdrop
      simp [caseEqB] at hdrop
    · simp only [hd1, hd2] at hdrop
      simp only [caseEqB, Bool.and_eq_true, decide_eq_true_eq] at hdrop
      have hdd := lowerN_isDigit hdrop.1
      show (if isDigitC c = true then none else skipNonDigits cs) =
        (if isDigitC d = true then none else skipNonDigits ds)
      rw [hdd]
      by_cases hdig : isDigitC d = true
      · rw [if_pos hdig, if_pos hdig]
      · rw [if_neg hdig, if_neg hdig]
        exact skipNonDigits_congr cs ds hdrop.2
  · rw [if_neg hc, if_neg hc]

/-- The leftmost search agrees on case-equal texts whenever the attempt
does. -/
theorem reSearch_congr (f : List Char → Option String)
    (hf : ∀ as bs, caseEqB as bs = true → f as = f bs) :
    ∀ (as bs : List Char), caseEqB as bs = true →
      reSearch f as = reSearch f bs := by
  intro as
  induction as with
  | nil =>
    intro bs h
    cases bs with
    | nil => rfl
    | cons b bs => simp [caseEqB] at h
  | cons a as ih =>
    intro bs h
    cases bs with
    | nil => simp [caseEqB] at h
    | cons b bs =>
      have hfe := hf (a :: as) (b :: bs) h
      simp only [caseEqB, Bool.and_eq_true] at h
      simp only [reSearch]
      rw [hfe]
      cases f (b :: bs) with
      | some r => rfl
      | none => exact ih bs h.2

/-- The Depot ID extractor is insensitive to letter case: case-equal
texts extract the same key. -/
theorem extract_depot_id_caseEq (t u : String)
    (h : caseEqB t.toList u.toList = true) :
    extract_depot_id_from_text t = extract_depot_id_from_text u := by
  have hp := reSearch_congr primaryAt primaryAt_congr t.toList u.toList h
  have hf := reSearch_congr fallbackAt fallbackAt_congr t.toList u.toList h
  unfold extract_depot_id_from_text
  by_cases ht : t = ""
  · subst ht
    have hul : u.toList = [] := by
      cases hu : u.toList with
      | nil => rfl
      | cons c cs =>
        rw [hu] at h
        simp [caseEqB] at h
    have hu0 : u = "" := String.ext (by rw [show u.data = u.toList from rfl, hul])
    rw [if_pos rfl, if_pos hu0]
  · have hu : u ≠ "" := by
      intro hu0
      subst hu0
      cases hts : t.toList with
      | nil => exact ht (String.ext (by rw [show t.data = t.toList from rfl, hts]))
      | cons c cs =>
        rw [hts] at h
        simp [caseEqB] at h
    rw [if_neg ht, if_neg hu, hp, hf]

/-!  Shape of the extractor outputs. -/

/-- A primary-pattern match is a string of four digits. -/
theorem primaryAt_shape :
    ∀ (l : List Char) (k : String), primaryAt l = some k →
      k.toList.length = 4 ∧ ∀ c ∈ k.toList, isDigitC c = true := by
  intro l k h
  match l with
  | [] => exact absurd h (by simp [primaryAt])
  | [d1] => exact absurd h (by simp [primaryAt])
  | [d1, d2] => exact absurd h (by simp [primaryAt])
  | [d1, d2, d3] => exact absurd h (by simp [primaryAt])
  | d1 :: d2 :: d3 :: d4 :: rest =>
    simp only [primaryAt] at h
    split at h
    · rename_i hcond
      simp only [Bool.and_eq_true] at hcond
      obtain rfl : (⟨[d1, d2, d3, d4]⟩ : String) = k := Option.some_inj.mp h
      refine ⟨rfl, ?_⟩
      intro c hc
      have hc' : c = d1 ∨ c = d2 ∨ c = d3 ∨ c = d4 := by
        simpa using hc
      rcases hc' with rfl | rfl | rfl | rfl
      · exact hcond.1.1.1.1
      · exact hcond.1.1.1.2
      · exact hcond.1.1.2
      · exact hcond.1.2
    · exact absurd h (by simp)

/-- A four-digit read is a string of four digits. -/
theorem digits4_shape :
    ∀ (l : List Char) (k : String), digits4 l = some k →
      k.toList.length = 4 ∧ ∀ c ∈ k.toList, isDigitC c = true := by
  intro l k h
  match l with
  | [] => exact absurd h (by simp [digits4])
  | [d1] => exact absurd h (by simp [digits4])
  | [d1, d2] => exact absurd h (by simp [digits4])
  | [d1, d2, d3] => exact absurd h (by simp [digits4])
  | d1 :: d2 :: d3 :: d4 :: rest =>
    simp only [digits4] at h
    split at h
    · rename_i hcond
      simp only [Bool.and_eq_true] at hcond
      obtain rfl : (⟨[d1, d2, d3, d4]⟩ : String) = k := Option.some_inj.mp h
      refine ⟨rfl, ?_⟩
      intro c hc
      have hc' : c = d1 ∨ c = d2 ∨ c = d3 ∨ c = d4 := by
        simpa using hc
      rcases hc' with rfl | rfl | rfl | rfl
      · exact hcond.1.1.1
      · exact hcond.1.1.2
      · exact hcond.1.2
      · exact hcond.2
    · exact absurd h (by simp)

/-- The non-digit skipper only ever returns a four-digit string. -/
theorem skipNonDigits_shape :
    ∀ (l : List Char) (k : String), skipNonDigits l = some k →
      k.toList.length = 4 ∧ ∀ c ∈ k.toList, isDigitC c = true := by
  intro l
  induction l with
  | nil => intro k h; exact absurd h (by simp [skipNonDigits])
  | cons c cs ih =>
    intro k h
    simp only [skipNonDigits] at h
    split at h
    · exact digits4_shape (c :: cs) k h
    · exact ih k h

/-- A fallback-pattern match is a string of four digits. -/
theorem fallbackAt_shape :
    ∀ (l : List Char) (k : String), fallbackAt l = some k →
      k.toList.length = 4 ∧ ∀ c ∈ k.toList, isDigitC c = true := by
  intro l k h
  unfold fallbackAt at h
  split at h
  · split at h
    · exact absurd h (by simp)
    · split at h
      · exact absurd h (by simp)
      · exact skipNonDigits_shape _ k h
  · exact absurd h (by simp)

/-- A Shipping Point match is three digits followed by the letter V. -/
theorem spAt_shape :
    ∀ (l : List Char) (k : String), spAt l = some k →
      ∃ d1 d2 d3, k = ⟨[d1, d2, d3, 'V']⟩ ∧ isDigitC d1 = true ∧
        isDigitC d2 = true ∧ isDigitC d3 = true := by
  intro l k h
  unfold spAt at h
  split at h
  · split at h
    · split at h
      · rename_i d1 d2 d3 v rest hmatch
        split at h
        · rename_i hcond
          simp only [Bool.and_eq_true, decide_eq_true_eq] at hcond
          obtain rfl : (⟨[d1, d2, d3, v]⟩ : String) = k := Option.some_inj.mp h
          exact ⟨d1, d2, d3, by rw [hcond.2], hcond.1.1.1, hcond.1.1.2, hcond.1.2⟩
        · exact absurd h (by simp)
      · exact absurd h (by simp)
    · exact absurd h (by simp)
  · exact absurd h (by simp)

/-!  Facts about the filename formatters. -/

/-- Python's `isdigit`, unfolded. -/
theorem str_isdigit_iff (s : String) :
    str_isdigit s = true ↔ s.toList ≠ [] ∧ ∀ c ∈ s.toList, isDigitC c = true := by
  unfold str_isdigit
  rw [Bool.and_eq_true, Bool.not_eq_true']
  rw [List.all_eq_true]
  constructor
  · rintro ⟨h1, h2⟩
    refine ⟨?_, h2⟩
    intro hnil
    rw [← List.isEmpty_iff] at hnil
    rw [hnil] at h1
    cases h1
  · rintro ⟨h1, h2⟩
    refine ⟨?_, h2⟩
    cases hie : s.toList.isEmpty
    · rfl
    · exact absurd (List.isEmpty_iff.mp hie) h1

/-- For a purely-numeric key of length at least two the Depot formatter
takes the transforming branch. -/
theorem depot_filename_digit_branch (k : String)
    (hlen : 2 ≤ k.toList.length) (hdig : ∀ c ∈ k.toList, isDigitC c = true) :
    depot_id_to_filename k = ⟨k.toList.drop 1⟩ ++ "V" ++ "_CL.pdf" := by
  have hne : k.toList ≠ [] := by
    intro hnil
    rw [hnil] at hlen
    simp at hlen
  have hdu : k ≠ "UNKNOWN" := by
    intro he
    have : isDigitC 'U' = true := by
      apply hdig
      rw [he]
      decide
    exact absurd this (by decide)
  have hd : str_isdigit k = true := (str_isdigit_iff k).mpr ⟨hne, hdig⟩
  have hlen' : ¬k.length < 2 := by
    have : k.length = k.toList.length := rfl
    omega
  unfold depot_id_to_filename
  rw [if_neg]
  push_neg
  exact ⟨hdu, by rw [hd]; simp, by omega⟩

/-- The Group List formatter only appends the suffix. -/
theorem shipping_point_to_filename_eq (sp : String) :
    shipping_point_to_filename sp = sp ++ "_Group.pdf" := by
  unfold shipping_point_to_filename
  by_cases h : sp = "UNKNOWN"
  · rw [if_pos h, h]
  · rw [if_neg h]

/-- Appending a common suffix to strings is cancellative. -/
theorem string_append_cancel {a b c : String} (h : a ++ c = b ++ c) : a = b := by
  have hd : a.data ++ c.data = b.data ++ c.data := by
    rw [← String.data_append, ← String.data_append, h]
  exact String.ext (List.append_cancel_right hd)

/-!  The claims. -/

/-- C10: for every input text the Depot ID extractor returns `UNKNOWN` or
a string of exactly four decimal digits, and the Shipping Point extractor
returns `UNKNOWN` or three decimal digits followed by the letter V; hence
every non-`UNKNOWN` depot key takes the formatter's purely-numeric
length-at-least-two branch. -/
theorem c10_output_shape (t : String) :
    (extract_depot_id_from_text t = "UNKNOWN" ∨
      ((extract_depot_id_from_text t).toList.length = 4 ∧
       ∀ c ∈ (extract_depot_id_from_text t).toList, isDigitC c = true)) ∧
    (extract_shipping_point_from_text t = "UNKNOWN" ∨
      ∃ d1 d2 d3, extract_shipping_point_from_text t = ⟨[d1, d2, d3, 'V']⟩ ∧
        isDigitC d1 = true ∧ isDigitC d2 = true ∧ isDigitC d3 = true) ∧
    (extract_depot_id_from_text t ≠ "UNKNOWN" →
      depot_id_to_filename (extract_depot_id_from_text t) =
        ⟨(extract_depot_id_from_text t).toList.drop 1⟩ ++ "V" ++ "_CL.pdf") := by
  have hdep : extract_depot_id_from_text t = "UNKNOWN" ∨
      ((extract_depot_id_from_text t).toList.length = 4 ∧
       ∀ c ∈ (extract_depot_id_from_text t).toList, isDigitC c = true) := by
    unfold extract_depot_id_from_text
    by_cases ht : t = ""
    · rw [if_pos ht]
      exact Or.inl rfl
    · rw [if_neg ht]
      cases hp : reSearch primaryAt t.toList with
      | some k =>
        exact Or.inr (reSearch_some_imp primaryAt
          (fun k => k.toList.length = 4 ∧ ∀ c ∈ k.toList, isDigitC c = true)
          primaryAt_shape t.toList k hp)
      | none =>
        cases hf : reSearch fallbackAt t.toList with
        | some k =>
          exact Or.inr (reSearch_some_imp fallbackAt
            (fun k => k.toList.length = 4 ∧ ∀ c ∈ k.toList, isDigitC c = true)
            fallbackAt_shape t.toList k hf)
        | none => exact Or.inl rfl
  have hsp : extract_shipping_point_from_text t = "UNKNOWN" ∨
      ∃ d1 d2 d3, extract_shipping_point_from_text t = ⟨[d1, d2, d3, 'V']⟩ ∧
        isDigitC d1 = true ∧ isDigitC d2 = true ∧ isDigitC d3 = true := by
    unfold extract_shipping_point_from_text
    by_cases ht : t = ""
    · rw [if_pos ht]
      exact Or.inl rfl
    · rw [if_neg ht]
      cases hp : reSearch spAt t.toList with
      | some k =>
        exact Or.inr (reSearch_some_imp spAt
          (fun k => ∃ d1 d2 d3, k = ⟨[d1, d2, d3, 'V']⟩ ∧ isDigitC d1 = true ∧
            isDigitC d2 = true ∧ isDigitC d3 = true)
          spAt_shape t.toList k hp)
      | none => exact Or.inl rfl
  refine ⟨hdep, hsp, ?_⟩
  intro hne
  rcases hdep with h | ⟨hlen, hdig⟩
  · exact absurd h hne
  · exact depot_filename_digit_branch _ (by omega) hdig

/-- C10 witness: concrete instance of the formatter corollary. -/
theorem c10_witness :
    depot_id_to_filename (extract_depot_id_from_text "2104\nDepot ID") =
      ⟨(extract_depot_id_from_text "2104\nDepot ID").toList.drop 1⟩ ++ "V" ++ "_CL.pdf" :=
  (c10_output_shape "2104\nDepot ID").2.2 (by decide)

/-- C3: the Depot ID extractor returns `UNKNOWN` on empty text; otherwise
the primary pattern is searched first with leftmost-match semantics, the
fallback pattern is searched only when the primary has no match anywhere,
and `UNKNOWN` results only when neither matches; on the documented
examples it extracts `2104`. -/
theorem c3_depot_extractor (t : String) :
    (t = "" → extract_depot_id_from_text t = "UNKNOWN") ∧
    (∀ k i, primaryAt (t.toList.drop i) = some k →
      (∀ j < i, primaryAt (t.toList.drop j) = none) →
      extract_depot_id_from_text t = k) ∧
    (∀ k i, (∀ j, primaryAt (t.toList.drop j) = none) →
      fallbackAt (t.toList.drop i) = some k →
      (∀ j < i, fallbackAt (t.toList.drop j) = none) →
      extract_depot_id_from_text t = k) ∧
    ((∀ j, primaryAt (t.toList.drop j) = none) →
      (∀ j, fallbackAt (t.toList.drop j) = none) →
      extract_depot_id_from_text t = "UNKNOWN") ∧
    extract_depot_id_from_text "1:342104\nDepot ID  7" = "2104" ∧
    extract_depot_id_from_text "Depot ID\nfoo 2104 bar" = "2104" := by
  refine ⟨?_, ?_, ?_, ?_, by decide, by decide⟩
  · intro ht
    rw [extract_depot_id_from_text, if_pos ht]
  · intro k i hi hj
    have hsome : reSearch primaryAt t.toList = some k :=
      (reSearch_eq_some_iff primaryAt t.toList k).mpr ⟨i, hi, hj⟩
    by_cases ht : t = ""
    · subst ht
      rw [show reSearch primaryAt ("" : String).toList = none from by decide] at hsome
      cases hsome
    · rw [extract_depot_id_from_text, if_neg ht, hsome]
  · intro k i hall hi hj
    have hnone : reSearch primaryAt t.toList = none :=
      (reSearch_eq_none_iff primaryAt t.toList).mpr hall
    have hsome : reSearch fallbackAt t.toList = some k :=
      (reSearch_eq_some_iff fallbackAt t.toList k).mpr ⟨i, hi, hj⟩
    by_cases ht : t = ""
    · subst ht
      rw [show reSearch fallbackAt ("" : String).toList = none from by decide] at hsome
      cases hsome
    · rw [extract_depot_id_from_text, if_neg ht, hnone, hsome]
  · intro hp hf
    have h1 : reSearch primaryAt t.toList = none :=
      (reSearch_eq_none_iff primaryAt t.toList).mpr hp
    have h2 : reSearch fallbackAt t.toList = none :=
      (reSearch_eq_none_iff fallbackAt t.toList).mpr hf
    by_cases ht : t = ""
    · rw [extract_depot_id_from_text, if_pos ht]
    · rw [extract_depot_id_from_text, if_neg ht, h1, h2]

/-- C3 witness: the primary pattern matches at position 4 of the first
documented example and nowhere earlier. -/
theorem c3_witness :
    extract_depot_id_from_text "1:342104\nDepot ID" = "2104" :=
  (c3_depot_extractor "1:342104\nDepot ID").2.1 "2104" 4 (by decide) (by decide)

/-- C4: the Shipping Point extractor returns the matched three-digit-V
token verbatim under leftmost-match semantics and `UNKNOWN` when the
single pattern matches nowhere (there is no fallback); a malformed
two-digit value yields `UNKNOWN`. -/
theorem c4_shipping_extractor (t : String) :
    (t = "" → extract_shipping_point_from_text t = "UNKNOWN") ∧
    (∀ k i, spAt (t.toList.drop i) = some k →
      (∀ j < i, spAt (t.toList.drop j) = none) →
      extract_shipping_point_from_text t = k) ∧
    ((∀ j, spAt (t.toList.drop j) = none) →
      extract_shipping_point_from_text t = "UNKNOWN") ∧
    extract_shipping_point_from_text "Shipping Point : 123V Messer St Hubert" = "123V" ∧
    extract_shipping_point_from_text "Shipping Point : 12V" = "UNKNOWN" := by
  refine ⟨?_, ?_, ?_, by decide, by decide⟩
  · intro ht
    rw [extract_shipping_point_from_text, if_pos ht]
  · intro k i hi hj
    have hsome : reSearch spAt t.toList = some k :=
      (reSearch_eq_some_iff spAt t.toList k).mpr ⟨i, hi, hj⟩
    by_cases ht : t = ""
    · subst ht
      rw [show reSearch spAt ("" : String).toList = none from by decide] at hsome
      cases hsome
    · rw [extract_shipping_point_from_text, if_neg ht, hsome]
  · intro hall
    have hnone : reSearch spAt t.toList = none :=
      (reSearch_eq_none_iff spAt t.toList).mpr hall
    by_cases ht : t = ""
    · rw [extract_shipping_point_from_text, if_pos ht]
    · rw [extract_shipping_point_from_text, if_neg ht, hnone]

/-- C4 witness: the pattern matches at the start of the documented
example text. -/
theorem c4_witness :
    extract_shipping_point_from_text "Shipping Point : 123V" = "123V" :=
  (c4_shipping_extractor "Shipping Point : 123V").2.1 "123V" 0 (by decide)
    (by omega)

/-- C7: the Depot filename rule uses the key verbatim when it is
`UNKNOWN`, not purely numeric, or shorter than two characters, and
otherwise drops the first character and appends `V`, always with the
`_CL.pdf` suffix; the three documented examples hold. -/
theorem c7_depot_filename (k : String) :
    ((k = "UNKNOWN" ∨ ¬(k.toList ≠ [] ∧ ∀ c ∈ k.toList, isDigitC c = true) ∨
        k.toList.length < 2) →
      depot_id_to_filename k = k ++ "_CL.pdf") ∧
    (k ≠ "UNKNOWN" → (∀ c ∈ k.toList, isDigitC c = true) → 2 ≤ k.toList.length →
      depot_id_to_filename k = ⟨k.toList.drop 1⟩ ++ "V" ++ "_CL.pdf") ∧
    depot_id_to_filename "2104" = "104V_CL.pdf" ∧
    depot_id_to_filename "UNKNOWN" = "UNKNOWN_CL.pdf" ∧
    depot_id_to_filename "5" = "5_CL.pdf" := by
  refine ⟨?_, ?_, by decide, by decide, by decide⟩
  · intro h
    unfold depot_id_to_filename
    rw [if_pos]
    rcases h with h | h | h
    · exact Or.inl h
    · refine Or.inr (Or.inl ?_)
      rw [Bool.eq_false_iff]
      intro hd
      exact h ((str_isdigit_iff k).mp hd)
    · exact Or.inr (Or.inr h)
  · intro h1 h2 h3
    exact depot_filename_digit_branch k h3 h2

/-- C7 witness: the transforming branch on the documented key `2104`. -/
theorem c7_witness :
    depot_id_to_filename "2104" = ⟨"2104".toList.drop 1⟩ ++ "V" ++ "_CL.pdf" :=
  (c7_depot_filename "2104").2.1 (by decide) (by decide) (by decide)

/-- C1: in the Call List grouping each page with a resolved key joins
that key's group and the carried last-resolved key tracks the last
resolved page; each `UNKNOWN` page with a previously resolved key joins
that key's group with a reattributed `(page_number, assigned_key)`
diagnostic; the documented key sequence produces the documented groups
and diagnostics. -/
theorem c1_call_list_grouping (texts : List String) :
    (∀ i (h : i < (texts.map extract_depot_id_from_text).length),
      ((texts.map extract_depot_id_from_text).get ⟨i, h⟩ ≠ "UNKNOWN" →
        (1 + i) ∈ lookupG ((texts.map extract_depot_id_from_text).get ⟨i, h⟩)
          (callList texts).groups) ∧
      ((texts.map extract_depot_id_from_text).get ⟨i, h⟩ = "UNKNOWN" →
        ∀ d, lastKey none ((texts.map extract_depot_id_from_text).take i) = some d →
          (1 + i) ∈ lookupG d (callList texts).groups ∧
          (1 + i, d) ∈ (callList texts).attached)) ∧
    ((callList texts).lastDepot =
      lastKey none (texts.map extract_depot_id_from_text)) ∧
    (texts.map extract_depot_id_from_text = ["2104", "UNKNOWN", "UNKNOWN", "2200"] →
      (callList texts).groups = [("2104", [1, 2, 3]), ("2200", [4])] ∧
      (callList texts).attached = [(2, "2104"), (3, "2104")]) := by
  refine ⟨?_, ?_, ?_⟩
  · intro i h
    exact clRunK_assign (texts.map extract_depot_id_from_text)
      ⟨[], none, [], []⟩ 1 i h
  · exact clRunK_lastDepot (texts.map extract_depot_id_from_text)
      ⟨[], none, [], []⟩ 1
  · intro hmap
    unfold callList
    rw [hmap]
    exact ⟨by decide, by decide⟩

/-- C1 witness: a run realising the documented key sequence. -/
theorem c1_witness :
    (callList ["2104\nDepot ID", "x", "", "2200\nDepot ID"]).groups =
      [("2104", [1, 2, 3]), ("2200", [4])] ∧
    (callList ["2104\nDepot ID", "x", "", "2200\nDepot ID"]).attached =
      [(2, "2104"), (3, "2104")] :=
  (c1_call_list_grouping ["2104\nDepot ID", "x", "", "2200\nDepot ID"]).2.2
    (by decide)

/-- C8: every page of the source document lands in exactly one Call List
group (counted once overall), and the `UNKNOWN` group exists exactly when
at least one page precedes the first page whose key resolves (the leading
run of `UNKNOWN` keys is non-empty). -/
theorem c8_call_list_partition (texts : List String) :
    (∀ p, countPage p (callList texts).groups =
      if 1 ≤ p ∧ p < 1 + texts.length then 1 else 0) ∧
    ("UNKNOWN" ∈ groupKeys (callList texts).groups ↔
      0 < ((texts.map extract_depot_id_from_text).takeWhile
        (fun k => decide (k = "UNKNOWN"))).length) := by
  constructor
  · intro p
    have h := clRunK_countPage (texts.map extract_depot_id_from_text)
      ⟨[], none, [], []⟩ 1 p
    rw [List.length_map] at h
    rw [show countPage p ([] : List (String × List Nat)) = 0 from rfl,
      Nat.zero_add] at h
    exact h
  · have h := clRunK_unknown_mem (texts.map extract_depot_id_from_text)
      ⟨[], none, [], []⟩ 1 (fun d hd => Option.noConfusion hd)
    unfold callList
    rw [h]
    simp [groupKeys, List.length_pos]

/-- C2: in the Group List grouping each `UNKNOWN` page is recorded as
dropped and belongs to no group, each resolved page joins the group of
its own key, a page is counted in a group exactly when its own key
resolves, pages in groups plus dropped pages account for every input
page, and the documented key sequence produces the documented groups. -/
theorem c2_group_list_grouping (texts : List String) :
    (∀ i (h : i < (texts.map extract_shipping_point_from_text).length),
      ((texts.map extract_shipping_point_from_text).get ⟨i, h⟩ = "UNKNOWN" →
        (1 + i) ∈ (groupList texts).ignored ∧
        ∀ g ∈ (groupList texts).groups, (1 + i) ∉ g.2) ∧
      ((texts.map extract_shipping_point_from_text).get ⟨i, h⟩ ≠ "UNKNOWN" →
        (1 + i) ∈ lookupG ((texts.map extract_shipping_point_from_text).get ⟨i, h⟩)
          (groupList texts).groups)) ∧
    (∀ p, countPage p (groupList texts).groups =
      if 1 ≤ p ∧ p < 1 + texts.length ∧
          (texts.map extract_shipping_point_from_text).getD (p - 1) "UNKNOWN" ≠
            "UNKNOWN"
        then 1 else 0) ∧
    (totalPages (groupList texts).groups + (groupList texts).ignored.length =
      texts.length) ∧
    (texts.map extract_shipping_point_from_text = ["123V", "UNKNOWN", "123V", "140V"] →
      (groupList texts).groups = [("123V", [1, 3]), ("140V", [4])] ∧
      (groupList texts).ignored = [2]) := by
  have hcnt : ∀ p, countPage p (groupList texts).groups =
      if 1 ≤ p ∧ p < 1 + texts.length ∧
          (texts.map extract_shipping_point_from_text).getD (p - 1) "UNKNOWN" ≠
            "UNKNOWN"
        then 1 else 0 := by
    intro p
    have h := glRunK_countPage (texts.map extract_shipping_point_from_text)
      ⟨[], []⟩ 1 p
    rw [List.length_map] at h
    rw [show countPage p ([] : List (String × List Nat)) = 0 from rfl,
      Nat.zero_add] at h
    exact h
  refine ⟨?_, hcnt, ?_, ?_⟩
  · intro i h
    have hmain := glRunK_assign (texts.map extract_shipping_point_from_text)
      ⟨[], []⟩ 1 i h
    refine ⟨?_, hmain.2⟩
    intro hk
    refine ⟨hmain.1 hk, ?_⟩
    have hzero : countPage (1 + i) (groupList texts).groups = 0 := by
      rw [hcnt (1 + i), if_neg]
      rintro ⟨-, -, hgd⟩
      apply hgd
      have hsub : (1 : Nat) + i - 1 = i := by omega
      rw [hsub, List.getD_eq_getElem _ _ h]
      rw [List.get_eq_getElem] at hk
      exact hk
    exact (countPage_eq_zero_iff (1 + i) (groupList texts).groups).mp hzero
  · have h := glRunK_total (texts.map extract_shipping_point_from_text) ⟨[], []⟩ 1
    rw [List.length_map] at h
    rw [show totalPages ([] : List (String × List Nat)) = 0 from rfl] at h
    simpa using h
  · intro hmap
    unfold groupList
    rw [hmap]
    exact ⟨by decide, by decide⟩

/-- C2 witness: a run realising the documented key sequence. -/
theorem c2_witness :
    (groupList ["Shipping Point : 123V a", "junk", "Shipping Point:123V",
        "Shipping Point : 140V"]).groups = [("123V", [1, 3]), ("140V", [4])] ∧
    (groupList ["Shipping Point : 123V a", "junk", "Shipping Point:123V",
        "Shipping Point : 140V"]).ignored = [2] :=
  (c2_group_list_grouping ["Shipping Point : 123V a", "junk",
    "Shipping Point:123V", "Shipping Point : 140V"]).2.2.2 (by decide)

/-- C9: when every page's Shipping Point extraction is `UNKNOWN`, the
Group List splitter reports the empty-result condition and produces no
archive. -/
theorem c9_group_list_empty (texts : List String)
    (h : ∀ t ∈ texts, extract_shipping_point_from_text t = "UNKNOWN") :
    groupListArchive texts = none := by
  have hg : (groupList texts).groups = [] := by
    unfold groupList
    apply glRunK_groups_const
    intro k hk
    obtain ⟨t, ht, rfl⟩ := List.mem_map.mp hk
    exact h t ht
  simp [groupListArchive, hg]

/-- C9 witness: a concrete all-`UNKNOWN` run yields no archive. -/
theorem c9_witness : groupListArchive ["hello", ""] = none :=
  c9_group_list_empty ["hello", ""] (by decide)

/-- C5 (amended): label matching is case-insensitive for the Depot ID
extractor — case-equal texts always extract the same key — while the
Shipping Point extractor matches its label case-sensitively, so changing
the case of its label can change the result. -/
theorem c5_depot_label_case_insensitive :
    (∀ t u : String, caseEqB t.toList u.toList = true →
      extract_depot_id_from_text t = extract_depot_id_from_text u) ∧
    extract_shipping_point_from_text "SHIPPING POINT : 123V" ≠
      extract_shipping_point_from_text "Shipping Point : 123V" :=
  ⟨extract_depot_id_caseEq, by decide⟩

/-- C5 counterexample: two texts differing only in the letter case of the
Shipping Point label extract different keys, refuting case-insensitive
label matching for the Group List variant. -/
theorem c5_counterexample :
    caseEqB "SHIPPING POINT : 123V".toList "Shipping Point : 123V".toList = true ∧
    extract_shipping_point_from_text "Shipping Point : 123V" = "123V" ∧
    extract_shipping_point_from_text "SHIPPING POINT : 123V" = "UNKNOWN" :=
  ⟨by decide, by decide, by decide⟩

/-- C5 witness: a case-changed Depot label still extracts the same key. -/
theorem c5_witness :
    extract_depot_id_from_text "2104\ndepot id x" =
      extract_depot_id_from_text "2104\nDEPOT ID X" :=
  c5_depot_label_case_insensitive.1 "2104\ndepot id x" "2104\nDEPOT ID X"
    (by decide)

/-- C6 (amended): Group List filenames are unique per distinct key; Call
List filenames of four-digit keys coincide exactly when the keys agree
after dropping their first character, so distinct keys differing only in
the first digit collide. -/
theorem c6_filename_uniqueness :
    (∀ s1 s2 : String,
      shipping_point_to_filename s1 = shipping_point_to_filename s2 → s1 = s2) ∧
    (∀ k1 k2 : String,
      (∀ c ∈ k1.toList, isDigitC c = true) → k1.toList.length = 4 →
      (∀ c ∈ k2.toList, isDigitC c = true) → k2.toList.length = 4 →
      (depot_id_to_filename k1 = depot_id_to_filename k2 ↔
        k1.toList.drop 1 = k2.toList.drop 1)) := by
  constructor
  · intro s1 s2 h
    rw [shipping_point_to_filename_eq, shipping_point_to_filename_eq] at h
    exact string_append_cancel h
  · intro k1 k2 hd1 hl1 hd2 hl2
    rw [depot_filename_digit_branch k1 (by omega) hd1,
        depot_filename_digit_branch k2 (by omega) hd2]
    constructor
    · intro h
      have h2 := string_append_cancel h
      have h3 := string_append_cancel h2
      exact congrArg String.data h3
    · intro h
      rw [show (⟨k1.toList.drop 1⟩ : String) = ⟨k2.toList.drop 1⟩ from
        congrArg String.mk h]

/-- C6 counterexample: one Call List run whose group mapping holds the
two distinct resolved keys 1045 and 2045, both formatted to the same
filename, refuting per-key filename uniqueness. -/
theorem c6_counterexample :
    groupKeys (callList ["1045\nDepot ID", "2045\nDepot ID"]).groups =
      ["1045", "2045"] ∧
    ("1045" : String) ≠ "2045" ∧
    depot_id_to_filename "1045" = depot_id_to_filename "2045" :=
  ⟨by decide, by decide, by decide⟩

/-- C6 witness: the collision criterion instantiated at the colliding
pair. -/
theorem c6_witness :
    depot_id_to_filename "1045" = depot_id_to_filename "2045" ↔
      "1045".toList.drop 1 = "2045".toList.drop 1 :=
  c6_filename_uniqueness.2 "1045" "2045" (by decide) (by decide) (by decide)
    (by decide)
